import Mathlib

/-!
Verification of the DVID versioned key-value substrate and label-volume
mutation engine against its natural-language specification.

The definitions below are a shallow embedding of the Go sources:

  * the basho-leveldb storage driver (versioned `Get`, `Put`, `Delete`,
    `goBatch.Put`, `goBatch.Delete`);
  * the labels64 mutation pipeline (`MergeLabels`/`processMerge`,
    `SplitLabels`/`processSplit`/`splitIndices`, `SplitCoarseLabels`,
    per-block workers `mergeBlock`/`splitBlock`, voxel-level
    `replaceLabel`/`splitLabel`);
  * the labelarray down-res octant grouping (`getHiresChanges`).

Machine integers (uint64 labels, int32 coordinates) are modelled as `Nat`
since the code only compares and copies them.  Byte-level serialization
(`MarshalBinary`, `SerializeData`) is modelled by storing the structured
value itself: all that matters for the index claims is which snapshot of
the structure was serialized at the moment of the corresponding `Put`.
-/

/-- Type-specific keys: label block data keys (`NewBlockTKeyByCoord`) and
label index keys (`NewLabelIndexTKey`).  Block coordinates (IZYX strings)
are modelled as naturals with their lexicographic order. -/
inductive TK where
  | block (izyx : Nat)
  | labelIndex (label : Nat)
deriving DecidableEq, Repr

/-- Physical key of the versioned engine: a type-key together with the
version id and the tombstone flag.  The data-instance id and class byte
are fixed by the context and play no role in the per-instance claims, so
they are omitted from the model. -/
structure PhysKey where
  tk : TK
  ver : Nat
  tomb : Bool
deriving DecidableEq, Repr

/-- Per-label index entry (`Meta` in labels64): total voxel count and the
sorted list of block coordinates containing the label. -/
structure Meta where
  voxels : Nat
  blocks : List Nat
deriving DecidableEq, Repr

/-- Values stored in the engine: serialized label metadata, opaque block
payload bytes (abstracted by a natural), or the empty value used as a
tombstone payload (`dvid.EmptyValue()`). -/
inductive Val where
  | meta (m : Meta)
  | bytes (n : Nat)
  | empty
deriving DecidableEq, Repr

/-- The data key for a type-key at a version (tombstone flag 0). -/
def dataKey (tk : TK) (ver : Nat) : PhysKey := ⟨tk, ver, false⟩

/-- The tombstone sibling key for a type-key at a version (tombstone flag 1),
as constructed by `vctx.TombstoneKey`. -/
def tombKey (tk : TK) (ver : Nat) : PhysKey := ⟨tk, ver, true⟩

/-- A single low-level write-batch entry of the leveldb `WriteBatch`. -/
inductive WOp where
  | put (k : PhysKey) (v : Val)
  | del (k : PhysKey)
deriving DecidableEq, Repr

/-- The engine state: a map from physical keys to stored values. -/
def KStore : Type := PhysKey → Option Val

/-- Apply one `WriteBatch` entry to the store. -/
def applyW (s : KStore) : WOp → KStore
  | .put k v => fun k2 => if k2 = k then some v else s k2
  | .del k => fun k2 => if k2 = k then none else s k2

/-- Commit a `WriteBatch`: entries are applied in the order they were added. -/
def applyBatch (s : KStore) (ops : List WOp) : KStore :=
  ops.foldl applyW s

/-- Entries added by the versioned branch of `LevelDB.Put`: it deletes the
sibling tombstone key and puts the data key in one batch. -/
def versionedPutOps (tk : TK) (ver : Nat) (v : Val) : List WOp :=
  [.del (tombKey tk ver), .put (dataKey tk ver) v]

/-- Entries added by the versioned branch of `LevelDB.Delete`: it deletes the
data key and puts the empty value at the tombstone key in one batch. -/
def versionedDeleteOps (tk : TK) (ver : Nat) : List WOp :=
  [.del (dataKey tk ver), .put (tombKey tk ver) .empty]

/-- Entries added by one call of `goBatch.Put` on a versioned context: the
sibling tombstone is deleted, then the source puts the (key, value) pair
twice (the second `WriteBatch.Put` after the byte-count bookkeeping). -/
def goBatchPutOps (tk : TK) (ver : Nat) (v : Val) : List WOp :=
  [.del (tombKey tk ver), .put (dataKey tk ver) v, .put (dataKey tk ver) v]

/-- Entries added by one call of `goBatch.Delete` on a versioned context:
the tombstone key is put with the empty value and the data key deleted. -/
def goBatchDeleteOps (tk : TK) (ver : Nat) : List WOp :=
  [.put (tombKey tk ver) .empty, .del (dataKey tk ver)]

/-- Invariant: for no (type-key, version) do the data key and its tombstone
sibling both hold an entry. -/
def noDualKeys (s : KStore) : Prop :=
  ∀ tk ver, s (dataKey tk ver) = none ∨ s (tombKey tk ver) = none

lemma dataKey_ne_tombKey (tk : TK) (ver : Nat) : dataKey tk ver ≠ tombKey tk ver := by
  simp [dataKey, tombKey]

lemma tombKey_ne_dataKey (tk : TK) (ver : Nat) : tombKey tk ver ≠ dataKey tk ver := by
  simp [dataKey, tombKey]

lemma applyBatch_pair (s : KStore) (o1 o2 : WOp) :
    applyBatch s [o1, o2] = applyW (applyW s o1) o2 := rfl

lemma applyBatch_triple (s : KStore) (o1 o2 o3 : WOp) :
    applyBatch s [o1, o2, o3] = applyW (applyW (applyW s o1) o2) o3 := rfl

/-- Claim C9: after a committed versioned engine write (versioned `Put`,
versioned `Delete`, `goBatch.Put`, or `goBatch.Delete`), a data key and its
tombstone sibling never both exist: each of the four writes deletes one
sibling in the same batch that writes the other. -/
theorem versionedWrites_preserve_noDualKeys
    (s : KStore) (tk : TK) (ver : Nat) (v : Val) (h : noDualKeys s) :
    noDualKeys (applyBatch s (versionedPutOps tk ver v)) ∧
    noDualKeys (applyBatch s (versionedDeleteOps tk ver)) ∧
    noDualKeys (applyBatch s (goBatchPutOps tk ver v)) ∧
    noDualKeys (applyBatch s (goBatchDeleteOps tk ver)) := by
  refine ⟨?_, ?_, ?_, ?_⟩ <;>
    · intro tk2 ver2
      simp only [versionedPutOps, versionedDeleteOps, goBatchPutOps, goBatchDeleteOps,
        applyBatch, List.foldl, applyW]
      by_cases hk : tk2 = tk ∧ ver2 = ver
      · obtain ⟨rfl, rfl⟩ := hk
        simp [dataKey_ne_tombKey, tombKey_ne_dataKey]
      · have hd : dataKey tk2 ver2 ≠ dataKey tk ver := by
          simp only [dataKey, ne_eq, PhysKey.mk.injEq]
          intro hcon
          exact hk ⟨hcon.1, hcon.2.1⟩
        have ht : tombKey tk2 ver2 ≠ tombKey tk ver := by
          simp only [tombKey, ne_eq, PhysKey.mk.injEq]
          intro hcon
          exact hk ⟨hcon.1, hcon.2.1⟩
        have hdt : dataKey tk2 ver2 ≠ tombKey tk ver := by
          simp [dataKey, tombKey]
        have htd : tombKey tk2 ver2 ≠ dataKey tk ver := by
          simp [dataKey, tombKey]
        simp only [if_neg hd, if_neg ht, if_neg hdt, if_neg htd]
        exact h tk2 ver2

/-- Witness for C9 at a concrete empty store and key. -/
theorem versionedWrites_preserve_noDualKeys_witness :
    noDualKeys (fun _ => none) ∧
    noDualKeys (applyBatch (fun _ => none) (versionedPutOps (.block 4) 2 (.bytes 9))) := by
  have h0 : noDualKeys (fun _ => none) := fun _ _ => Or.inl rfl
  exact ⟨h0, (versionedWrites_preserve_noDualKeys (fun _ => none) (.block 4) 2 (.bytes 9) h0).1⟩

/-- Claim C7: contrary to the claim, a single `goBatch.Put` on a versioned
context adds the (key, value) put to the pending batch twice: once right
after deleting the sibling tombstone and a second time after the byte-count
bookkeeping. -/
theorem goBatchPut_writes_value_twice :
    (goBatchPutOps (.labelIndex 5) 3 (.bytes 99)).count
      (WOp.put (dataKey (.labelIndex 5) 3) (.bytes 99)) = 2 ∧
    goBatchPutOps (.labelIndex 5) 3 (.bytes 99) =
      [.del (tombKey (.labelIndex 5) 3),
       .put (dataKey (.labelIndex 5) 3) (.bytes 99),
       .put (dataKey (.labelIndex 5) 3) (.bytes 99)] := by
  constructor
  · decide
  · rfl

/-! ## Down-res octant grouping (`getHiresChanges` in labelarray) -/

/-- Octant index computed by `getHiresChanges` for a high-res block
coordinate: the source computes `((z % 2) >> 2) + ((y % 2) >> 1) + (x % 2)`
using right shifts. -/
def octantIndex (x y z : Nat) : Nat :=
  ((z % 2) >>> 2) + ((y % 2) >>> 1) + (x % 2)

/-- The mapping the specification prescribes for the octant index:
`(z & 1) * 4 + (y & 1) * 2 + (x & 1)`. -/
def specOctantIndex (x y z : Nat) : Nat :=
  (z % 2) * 4 + (y % 2) * 2 + (x % 2)

/-- Claim C8: contrary to the claim, the source's octant index collapses to
the x parity alone (the right shifts zero out the y and z contributions), so
coordinates (0,0,1) land at octant 0 instead of 4 and the parity triples
(0,0,0) and (0,1,0) collide. -/
theorem octantIndex_ignores_y_z :
    (∀ x y z : Nat, octantIndex x y z = x % 2) ∧
    octantIndex 0 0 1 = 0 ∧
    specOctantIndex 0 0 1 = 4 ∧
    octantIndex 0 0 0 = octantIndex 0 1 0 := by
  refine ⟨?_, rfl, rfl, rfl⟩
  intro x y z
  have hz : z % 2 < 2 := Nat.mod_lt _ (by omega)
  have hy : y % 2 < 2 := Nat.mod_lt _ (by omega)
  unfold octantIndex
  interval_cases hzv : (z % 2) <;> interval_cases hyv : (y % 2) <;> simp

/-! ## Versioned read resolution (`LevelDB.Get` with a versioned context) -/

/-- A stored row of the engine as returned by the iterator: physical key
plus value. -/
def DBRow : Type := PhysKey × Val

/-- Rows for all versions of one type-key, in ascending key order, as
collected by `getSingleKeyVersions` scanning from `MinVersionKey` to
`MaxVersionKey`: exactly the rows whose type-key matches. -/
def getSingleKeyVersions (db : List DBRow) (tk : TK) : List DBRow :=
  db.filter fun r => decide (r.1.tk = tk)

/-- Does any row exist at version `a` (tombstone or value)? -/
def hasEntryAt (rows : List DBRow) (a : Nat) : Bool :=
  rows.any fun r => decide (r.1.ver = a)

/-- Does a tombstone row exist at version `a`? -/
def hasTombAt (rows : List DBRow) (a : Nat) : Bool :=
  rows.any fun r => decide (r.1.ver = a ∧ r.1.tomb = true)

/-- The value row at version `a`, if any. -/
def valueAt (rows : List DBRow) (a : Nat) : Option Val :=
  (rows.find? fun r => decide (r.1.ver = a ∧ r.1.tomb = false)).map (·.2)

/-- Modelled from the spec: `storage.VersionedCtx.VersionedKeyValue` is not
part of the sources (only its callers `LevelDB.Get` and `sendKV` are).  Per
spec section 4.5 it walks `ancestors(V)` from `V` toward the root; at each
ancestor it first looks for the tombstone entry, then the value entry; a
tombstone yields "deleted" (`some none`), a value yields that value, and if
no ancestor has an entry the result is "absent" (`none`). -/
def versionedKeyValue (rows : List DBRow) : List Nat → Option (Option Val)
  | [] => none
  | a :: rest =>
    if hasTombAt rows a then some none
    else
      match rows.find? fun r => decide (r.1.ver = a ∧ r.1.tomb = false) with
      | some r => some (some r.2)
      | none => versionedKeyValue rows rest

/-- Versioned branch of `LevelDB.Get`: collect all versions of the type-key,
resolve with `VersionedKeyValue`, and return the value when the resolved
key-value is non-nil (both "deleted" and "absent" surface as `none`).
`anc` is the reader's ancestor path `ancestors(V)`, nearest first. -/
def vGet (db : List DBRow) (anc : List Nat) (tk : TK) : Option Val :=
  match versionedKeyValue (getSingleKeyVersions db tk) anc with
  | some (some v) => some v
  | _ => none

lemma hasEntryAt_of_hasTombAt {rows : List DBRow} {a : Nat}
    (h : hasTombAt rows a = true) : hasEntryAt rows a = true := by
  simp only [hasTombAt, List.any_eq_true, decide_eq_true_eq] at h
  obtain ⟨r, hr, hv, _⟩ := h
  simp only [hasEntryAt, List.any_eq_true, decide_eq_true_eq]
  exact ⟨r, hr, hv⟩

lemma hasEntryAt_of_find {rows : List DBRow} {a : Nat} {r : DBRow}
    (h : (rows.find? fun r => decide (r.1.ver = a ∧ r.1.tomb = false)) = some r) :
    hasEntryAt rows a = true := by
  have hmem := List.mem_of_find?_eq_some h
  have hp := List.find?_some h
  simp only [decide_eq_true_eq] at hp
  simp only [hasEntryAt, List.any_eq_true, decide_eq_true_eq]
  exact ⟨r, hmem, hp.1⟩

lemma hasEntryAt_false_cases {rows : List DBRow} {a : Nat}
    (htomb : hasTombAt rows a = false)
    (hfind : (rows.find? fun r => decide (r.1.ver = a ∧ r.1.tomb = false)) = none) :
    hasEntryAt rows a = false := by
  by_contra hcon
  rw [Bool.not_eq_false] at hcon
  simp only [hasEntryAt, List.any_eq_true, decide_eq_true_eq] at hcon
  obtain ⟨r, hr, hv⟩ := hcon
  cases htb : r.1.tomb
  · rw [List.find?_eq_none] at hfind
    have := hfind r hr
    simp [hv, htb] at this
  · have : hasTombAt rows a = true := by
      simp only [hasTombAt, List.any_eq_true, decide_eq_true_eq]
      exact ⟨r, hr, hv, htb⟩
    rw [htomb] at this
    exact Bool.false_ne_true this

/-- Claim C4: a versioned `Get` of a type-key returns the value found at the
nearest ancestor of the reader's version that has an entry (walking the
ancestor path nearest-first); a tombstone at that nearest ancestor yields
absent without consulting further ancestors, and if no ancestor has an entry
the result is absent. -/
theorem vGet_nearest_ancestor (db : List DBRow) (anc : List Nat) (tk : TK) :
    vGet db anc tk =
      match anc.find? (hasEntryAt (getSingleKeyVersions db tk)) with
      | none => none
      | some a =>
          if hasTombAt (getSingleKeyVersions db tk) a then none
          else valueAt (getSingleKeyVersions db tk) a := by
  induction anc with
  | nil => rfl
  | cons a rest ih =>
    unfold vGet versionedKeyValue
    by_cases htomb : hasTombAt (getSingleKeyVersions db tk) a
    · rw [List.find?_cons_of_pos _ (hasEntryAt_of_hasTombAt htomb)]
      simp [htomb]
    · simp only [Bool.not_eq_true] at htomb
      rw [htomb]
      simp only [Bool.false_eq_true, if_false]
      cases hfind : (getSingleKeyVersions db tk).find?
          fun r => decide (r.1.ver = a ∧ r.1.tomb = false) with
      | some r =>
        rw [List.find?_cons_of_pos _ (hasEntryAt_of_find hfind)]
        simp only [htomb, Bool.false_eq_true, if_false, valueAt, hfind]
        rfl
      | none =>
        rw [List.find?_cons_of_neg _ (by rw [hasEntryAt_false_cases htomb hfind]; simp)]
        unfold vGet at ih
        exact ih

/-! ## Label index store: sorted block lists -/

/-- Modelled from the spec: `Meta.Blocks.Merge` (`dvid.IZYXSlice` union) is
not part of the sources; per spec section 4.6 it is a linear-time sorted-set
union of two ascending block lists that preserves ascending order. -/
def izyxMerge : List Nat → List Nat → List Nat
  | [], ys => ys
  | x :: xs, [] => x :: xs
  | x :: xs, y :: ys =>
    if x < y then x :: izyxMerge xs (y :: ys)
    else if y < x then y :: izyxMerge (x :: xs) ys
    else x :: izyxMerge xs ys
termination_by a b => a.length + b.length

/-- Modelled from the spec: `Meta.Blocks.Split` (`dvid.IZYXSlice`
difference) is not part of the sources; per spec section 4.6 it is a
linear-time sorted-set difference of two ascending block lists. -/
def izyxSplit : List Nat → List Nat → List Nat
  | xs, [] => xs
  | [], _ :: _ => []
  | x :: xs, y :: ys =>
    if x < y then x :: izyxSplit xs (y :: ys)
    else if y < x then izyxSplit (x :: xs) ys
    else izyxSplit xs ys
termination_by a b => a.length + b.length

lemma izyxMerge_nil_left (ys : List Nat) : izyxMerge [] ys = ys := by
  cases ys <;> simp [izyxMerge]

lemma izyxMerge_mem (a b : List Nat) (z : Nat) :
    z ∈ izyxMerge a b ↔ z ∈ a ∨ z ∈ b := by
  induction a generalizing b with
  | nil => simp [izyxMerge_nil_left]
  | cons x xs ihx =>
    induction b with
    | nil => simp [izyxMerge]
    | cons y ys ihy =>
      rw [izyxMerge]
      rcases Nat.lt_trichotomy x y with h1 | h2 | h3
      · rw [if_pos h1]
        simp only [List.mem_cons, ihx]
        tauto
      · subst h2
        rw [if_neg (lt_irrefl x), if_neg (lt_irrefl x)]
        simp only [List.mem_cons, ihx]
        tauto
      · rw [if_neg (Nat.lt_asymm h3), if_pos h3]
        simp only [List.mem_cons] at ihy ⊢
        rw [ihy]
        tauto

lemma izyxMerge_sorted : ∀ (a b : List Nat),
    a.Sorted (· < ·) → b.Sorted (· < ·) → (izyxMerge a b).Sorted (· < ·)
  | [], b, _, hb => by rw [izyxMerge_nil_left]; exact hb
  | x :: xs, [], ha, _ => by rw [izyxMerge]; exact ha
  | x :: xs, y :: ys, ha, hb => by
    rw [izyxMerge]
    obtain ⟨hax, haxs⟩ := List.sorted_cons.mp ha
    obtain ⟨hby, hbys⟩ := List.sorted_cons.mp hb
    rcases Nat.lt_trichotomy x y with h1 | h2 | h3
    · rw [if_pos h1]
      refine List.sorted_cons.mpr ⟨?_, izyxMerge_sorted xs (y :: ys) haxs hb⟩
      intro z hz
      rcases (izyxMerge_mem xs (y :: ys) z).mp hz with hzx | hzy
      · exact hax z hzx
      · rcases List.mem_cons.mp hzy with rfl | hzys
        · exact h1
        · exact lt_trans h1 (hby z hzys)
    · subst h2
      rw [if_neg (lt_irrefl x), if_neg (lt_irrefl x)]
      refine List.sorted_cons.mpr ⟨?_, izyxMerge_sorted xs ys haxs hbys⟩
      intro z hz
      rcases (izyxMerge_mem xs ys z).mp hz with hzx | hzy
      · exact hax z hzx
      · exact hby z hzy
    · rw [if_neg (Nat.lt_asymm h3), if_pos h3]
      refine List.sorted_cons.mpr ⟨?_, izyxMerge_sorted (x :: xs) ys ha hbys⟩
      intro z hz
      rcases (izyxMerge_mem (x :: xs) ys z).mp hz with hzx | hzy
      · rcases List.mem_cons.mp hzx with rfl | hzxs
        · exact h3
        · exact lt_trans h3 (hax z hzxs)
      · exact hby z hzy
termination_by a b => a.length + b.length

/-- Modelled from the spec: `GetLabelMeta` for a set of labels (not part of
the sources) returns the combined entry: the sum of the labels' voxel counts
and the `Meta.Blocks.Merge` union of their block lists, each read from the
committed label index `idx` at the context's version. -/
def getLabelMetaSet (idx : Nat → Meta) (ls : List Nat) : Meta :=
  { voxels := (ls.map fun l => (idx l).voxels).sum,
    blocks := ls.foldl (fun acc l => izyxMerge acc (idx l).blocks) [] }

lemma foldl_izyxMerge_sorted (idx : Nat → Meta) (ms : List Nat) (acc : List Nat)
    (hacc : acc.Sorted (· < ·)) (hms : ∀ m ∈ ms, (idx m).blocks.Sorted (· < ·)) :
    (ms.foldl (fun acc l => izyxMerge acc (idx l).blocks) acc).Sorted (· < ·) := by
  induction ms generalizing acc with
  | nil => exact hacc
  | cons m ms ih =>
    rw [List.foldl_cons]
    exact ih (izyxMerge acc (idx m).blocks)
      (izyxMerge_sorted acc (idx m).blocks hacc (hms m (List.mem_cons_self m ms)))
      fun m2 hm2 => hms m2 (List.mem_cons_of_mem m hm2)

lemma foldl_izyxMerge_mem (idx : Nat → Meta) (ms : List Nat) (acc : List Nat) (b : Nat) :
    b ∈ ms.foldl (fun acc l => izyxMerge acc (idx l).blocks) acc ↔
      b ∈ acc ∨ ∃ m ∈ ms, b ∈ (idx m).blocks := by
  induction ms generalizing acc with
  | nil => simp
  | cons m ms ih =>
    rw [List.foldl_cons, ih, izyxMerge_mem]
    simp only [List.mem_cons]
    constructor
    · rintro ((hb | hb) | ⟨m2, hm2, hb⟩)
      · exact Or.inl hb
      · exact Or.inr ⟨m, Or.inl rfl, hb⟩
      · exact Or.inr ⟨m2, Or.inr hm2, hb⟩
    · rintro (hb | ⟨m2, (rfl | hm2), hb⟩)
      · exact Or.inl (Or.inl hb)
      · exact Or.inl (Or.inr hb)
      · exact Or.inr ⟨m2, hm2, hb⟩

/-! ## Merge coordinator index update (`processMerge` in labels64) -/

/-- A merge operation: target label and the set of labels merged into it
(`labels.MergeOp`). -/
structure MergeOpM where
  target : Nat
  merged : List Nat
deriving DecidableEq, Repr

/-- The tail of the merge batch: one `goBatch.Delete` per merged label. -/
def mergedDeleteOps (ms : List Nat) (ver : Nat) : List WOp :=
  ms.foldr (fun m acc => goBatchDeleteOps (.labelIndex m) ver ++ acc) []

/-- The write batch committed by `processMerge` after the per-block barrier:
the combined meta (voxel counts summed, block lists union-merged) is put at
the target label's index key via `batch.Put`, then every merged label's
index key is deleted via `batch.Delete` (which writes its tombstone), and
the batch is committed. -/
def processMergeWOps (idx : Nat → Meta) (op : MergeOpM) (ver : Nat) : List WOp :=
  let targetMeta := getLabelMetaSet idx [op.target]
  let mergedMeta := getLabelMetaSet idx op.merged
  let blocks := izyxMerge targetMeta.blocks mergedMeta.blocks
  let meta : Meta := { voxels := targetMeta.voxels + mergedMeta.voxels, blocks := blocks }
  goBatchPutOps (.labelIndex op.target) ver (.meta meta) ++ mergedDeleteOps op.merged ver

/-- The physical key touched by a `WriteBatch` entry. -/
def wopKey : WOp → PhysKey
  | .put k _ => k
  | .del k => k

lemma applyW_ne {s : KStore} {o : WOp} {k : PhysKey} (h : wopKey o ≠ k) :
    applyW s o k = s k := by
  cases o with
  | put k0 v =>
    simp only [wopKey] at h
    simp [applyW, Ne.symm h]
  | del k0 =>
    simp only [wopKey] at h
    simp [applyW, Ne.symm h]

lemma applyBatch_cons (s : KStore) (o : WOp) (os : List WOp) :
    applyBatch s (o :: os) = applyBatch (applyW s o) os := rfl

lemma applyBatch_append2 (s : KStore) (l1 l2 : List WOp) :
    applyBatch s (l1 ++ l2) = applyBatch (applyBatch s l1) l2 := by
  simp [applyBatch, List.foldl_append]

lemma applyBatch_notouch {ops : List WOp} {k : PhysKey}
    (h : ∀ o ∈ ops, wopKey o ≠ k) (s : KStore) :
    applyBatch s ops k = s k := by
  induction ops generalizing s with
  | nil => rfl
  | cons o os ih =>
    rw [applyBatch_cons]
    rw [ih fun o2 ho2 => h o2 (List.mem_cons_of_mem o ho2)]
    exact applyW_ne (h o (List.mem_cons_self o os))

lemma labelIndex_key_ne {m l : Nat} (h : m ≠ l) (ver : Nat) (t1 t2 : Bool) :
    (⟨.labelIndex m, ver, t1⟩ : PhysKey) ≠ ⟨.labelIndex l, ver, t2⟩ := by
  simp only [ne_eq, PhysKey.mk.injEq, TK.labelIndex.injEq]
  intro hcon
  exact h hcon.1

lemma goBatchDeleteOps_keys {m : Nat} {ver : Nat} {o : WOp}
    (ho : o ∈ goBatchDeleteOps (.labelIndex m) ver) :
    wopKey o = tombKey (.labelIndex m) ver ∨ wopKey o = dataKey (.labelIndex m) ver := by
  rcases List.mem_cons.mp ho with rfl | ho2
  · exact Or.inl rfl
  · rcases List.mem_cons.mp ho2 with rfl | ho3
    · exact Or.inr rfl
    · exact absurd ho3 (List.not_mem_nil o)

lemma mergedDeleteOps_notouch {ms : List Nat} {l : Nat} (hl : l ∉ ms) (ver : Nat)
    (k : PhysKey) (hk : k.tk = TK.labelIndex l) (s : KStore) :
    applyBatch s (mergedDeleteOps ms ver) k = s k := by
  refine applyBatch_notouch (fun o ho => ?_) s
  induction ms with
  | nil => cases ho
  | cons m ms ih =>
    rw [mergedDeleteOps, List.foldr_cons, ← mergedDeleteOps] at ho
    rcases List.mem_append.mp ho with hin | hin
    · have hm : m ≠ l := fun hcon => hl (hcon ▸ List.mem_cons_self m ms)
      rcases goBatchDeleteOps_keys hin with hkk | hkk <;>
        · rw [hkk]
          intro heq
          have h3 := congrArg PhysKey.tk heq
          rw [hk] at h3
          injection h3 with h4
          exact hm h4
    · exact ih (fun hcon => hl (List.mem_cons_of_mem m hcon)) hin

lemma mergedDeleteOps_eval {ms : List Nat} (hnd : ms.Nodup) {m : Nat} (hm : m ∈ ms)
    (ver : Nat) (s : KStore) :
    applyBatch s (mergedDeleteOps ms ver) (tombKey (.labelIndex m) ver) = some .empty ∧
    applyBatch s (mergedDeleteOps ms ver) (dataKey (.labelIndex m) ver) = none := by
  induction ms generalizing s with
  | nil => cases hm
  | cons a as ih =>
    rw [mergedDeleteOps, List.foldr_cons, ← mergedDeleteOps]
    rw [applyBatch_append2]
    rcases List.mem_cons.mp hm with rfl | hmas
    · have hnot : m ∉ as := (List.nodup_cons.mp hnd).1
      rw [mergedDeleteOps_notouch hnot ver (tombKey (TK.labelIndex m) ver) rfl,
        mergedDeleteOps_notouch hnot ver (dataKey (TK.labelIndex m) ver) rfl]
      constructor
      · show applyBatch s (goBatchDeleteOps (.labelIndex m) ver) (tombKey (.labelIndex m) ver) = some Val.empty
        simp [goBatchDeleteOps, applyBatch, applyW, tombKey_ne_dataKey]
      · show applyBatch s (goBatchDeleteOps (.labelIndex m) ver) (dataKey (.labelIndex m) ver) = none
        simp [goBatchDeleteOps, applyBatch, applyW]
    · exact ih (List.nodup_cons.mp hnd).2 hmas _

/-- Claim C3: a completed merge commits one batch that writes the target
label's index entry with the sum of the previous voxel counts of the target
and all merged labels and the sorted union of their block lists, and writes
a tombstone (deleting the data key) for every merged label's index entry. -/
theorem processMerge_index_update
    (idx : Nat → Meta) (op : MergeOpM) (ver : Nat) (s : KStore)
    (hTM : op.target ∉ op.merged) (hnd : op.merged.Nodup)
    (hsT : (idx op.target).blocks.Sorted (· < ·))
    (hsM : ∀ m ∈ op.merged, (idx m).blocks.Sorted (· < ·)) :
    (∃ meta : Meta,
      applyBatch s (processMergeWOps idx op ver) (dataKey (.labelIndex op.target) ver) =
        some (.meta meta) ∧
      meta.voxels = (idx op.target).voxels + (op.merged.map fun m => (idx m).voxels).sum ∧
      meta.blocks.Sorted (· < ·) ∧
      ∀ b, b ∈ meta.blocks ↔
        b ∈ (idx op.target).blocks ∨ ∃ m ∈ op.merged, b ∈ (idx m).blocks) ∧
    ∀ m ∈ op.merged,
      applyBatch s (processMergeWOps idx op ver) (tombKey (.labelIndex m) ver) =
        some .empty ∧
      applyBatch s (processMergeWOps idx op ver) (dataKey (.labelIndex m) ver) = none := by
  have hTsorted : (getLabelMetaSet idx [op.target]).blocks.Sorted (· < ·) := by
    refine foldl_izyxMerge_sorted idx [op.target] [] List.sorted_nil ?_
    intro m hm
    rcases List.mem_cons.mp hm with rfl | h
    · exact hsT
    · exact absurd h (List.not_mem_nil m)
  have hMsorted : (getLabelMetaSet idx op.merged).blocks.Sorted (· < ·) :=
    foldl_izyxMerge_sorted idx op.merged [] List.sorted_nil hsM
  have hps : processMergeWOps idx op ver =
      goBatchPutOps (.labelIndex op.target) ver
        (.meta { voxels := (getLabelMetaSet idx [op.target]).voxels +
                   (getLabelMetaSet idx op.merged).voxels,
                 blocks := izyxMerge (getLabelMetaSet idx [op.target]).blocks
                   (getLabelMetaSet idx op.merged).blocks }) ++
        mergedDeleteOps op.merged ver := rfl
  constructor
  · refine ⟨Meta.mk
      ((getLabelMetaSet idx [op.target]).voxels + (getLabelMetaSet idx op.merged).voxels)
      (izyxMerge (getLabelMetaSet idx [op.target]).blocks
        (getLabelMetaSet idx op.merged).blocks), ?_, ?_, ?_, ?_⟩
    · rw [hps, applyBatch_append2,
        mergedDeleteOps_notouch hTM ver (dataKey (.labelIndex op.target) ver) rfl]
      simp [goBatchPutOps, applyBatch, applyW]
    · show (getLabelMetaSet idx [op.target]).voxels +
          (getLabelMetaSet idx op.merged).voxels =
        (idx op.target).voxels + (op.merged.map fun m => (idx m).voxels).sum
      simp [getLabelMetaSet]
    · exact izyxMerge_sorted _ _ hTsorted hMsorted
    · intro b
      rw [izyxMerge_mem]
      have h1 := foldl_izyxMerge_mem idx [op.target] [] b
      have h2 := foldl_izyxMerge_mem idx op.merged [] b
      simp only [List.not_mem_nil, false_or] at h1 h2
      show b ∈ (getLabelMetaSet idx [op.target]).blocks ∨
          b ∈ (getLabelMetaSet idx op.merged).blocks ↔ _
      rw [show (getLabelMetaSet idx [op.target]).blocks =
          List.foldl (fun acc l => izyxMerge acc (idx l).blocks) [] [op.target] from rfl,
        show (getLabelMetaSet idx op.merged).blocks =
          List.foldl (fun acc l => izyxMerge acc (idx l).blocks) [] op.merged from rfl,
        h1, h2]
      simp
  · intro m hm
    rw [hps, applyBatch_append2]
    exact mergedDeleteOps_eval hnd hm ver _

/-- Witness for C3 at the S3 scenario: merge label 11 (50 voxels, blocks
[2, 3]) into target 10 (100 voxels, blocks [1, 2]) at version 3 on an empty
store. -/
theorem processMerge_index_update_witness :
    ((10 : Nat) ∉ [11]) ∧ ([11] : List Nat).Nodup ∧
    (List.Sorted (· < ·) [1, 2]) ∧ (∀ m ∈ [11], List.Sorted (· < ·) [2, 3]) ∧
    ((∃ meta : Meta,
      applyBatch (fun _ => none)
          (processMergeWOps
            (fun l => if l = 10 then ⟨100, [1, 2]⟩ else if l = 11 then ⟨50, [2, 3]⟩ else ⟨0, []⟩)
            ⟨10, [11]⟩ 3)
          (dataKey (.labelIndex 10) 3) = some (.meta meta) ∧
      meta.voxels = 100 + ([50] : List Nat).sum ∧
      meta.blocks.Sorted (· < ·) ∧
      ∀ b, b ∈ meta.blocks ↔ b ∈ [1, 2] ∨ ∃ m ∈ [11], b ∈ [2, 3]) ∧
    ∀ m ∈ [11],
      applyBatch (fun _ => none)
          (processMergeWOps
            (fun l => if l = 10 then ⟨100, [1, 2]⟩ else if l = 11 then ⟨50, [2, 3]⟩ else ⟨0, []⟩)
            ⟨10, [11]⟩ 3)
          (tombKey (.labelIndex m) 3) = some .empty ∧
      applyBatch (fun _ => none)
          (processMergeWOps
            (fun l => if l = 10 then ⟨100, [1, 2]⟩ else if l = 11 then ⟨50, [2, 3]⟩ else ⟨0, []⟩)
            ⟨10, [11]⟩ 3)
          (dataKey (.labelIndex m) 3) = none) := by
  refine ⟨by decide, by decide, by decide, by decide, ?_⟩
  have h := processMerge_index_update
    (fun l => if l = 10 then ⟨100, [1, 2]⟩ else if l = 11 then ⟨50, [2, 3]⟩ else ⟨0, []⟩)
    ⟨10, [11]⟩ 3 (fun _ => none) (by decide) (by decide) (by decide)
    (by
      intro m hm
      rcases List.mem_cons.mp hm with rfl | h2
      · decide
      · exact absurd h2 (List.not_mem_nil m))
  obtain ⟨⟨meta, hm1, hm2, hm3, hm4⟩, h2⟩ := h
  refine ⟨⟨meta, hm1, ?_, hm3, ?_⟩, ?_⟩
  · simpa using hm2
  · intro b
    rw [hm4]
    simp
  · intro m hm
    rcases List.mem_cons.mp hm with rfl | h3
    · exact h2 11 (List.mem_cons_self 11 [])
    · exact absurd h3 (List.not_mem_nil m)

/-! ## Fine split index update (`splitIndices` in labels64) -/

/-- The split delta carried to `splitIndices` (`labels.DeltaSplit`): old and
new label, the voxel count of the submitted split RLEs, and the sorted list
of blocks touched by the split. -/
structure DeltaSplit where
  oldLabel : Nat
  newLabel : Nat
  splitVoxels : Nat
  sortedBlocks : List Nat
deriving DecidableEq, Repr

/-- The write batch committed by `splitIndices`: the old label's meta is
loaded, the emptied blocks are removed from its block list
(`Meta.Blocks.Split`) and `delta.SplitVoxels` subtracted from its voxel
count, and the result is marshaled into `data` and put at the old label's
index key.  The source then assigns the new label's voxel count and block
list to the local `meta` but puts the previously marshaled `data` at the
new label's key without re-serializing, so the new label's key receives the
bytes of the old label's updated entry. -/
def splitIndicesWOps (oldMeta : Meta) (delta : DeltaSplit) (deleteBlks : List Nat)
    (ver : Nat) : List WOp :=
  let blocks := izyxSplit oldMeta.blocks deleteBlks
  let metaOld : Meta := { voxels := oldMeta.voxels - delta.splitVoxels, blocks := blocks }
  let data := metaOld
  goBatchPutOps (.labelIndex delta.oldLabel) ver (.meta data) ++
    goBatchPutOps (.labelIndex delta.newLabel) ver (.meta data)

/-- Claim C2: contrary to the claim, the batch committed by a fine split at
the S5 scenario (old label 10 with 70 voxels in block b2, 25 voxels split
into new label 13, no block emptied) stores under the NEW label's index key
the old label's updated serialized entry (45 voxels, blocks [2]) instead of
the claimed new-label entry (25 voxels, blocks [2]): the local assignments
of the new label's fields are dead because the marshaled bytes are not
regenerated before the second put. -/
theorem splitIndices_new_label_gets_stale_meta :
    applyBatch (fun _ => none) (splitIndicesWOps ⟨70, [2]⟩ ⟨10, 13, 25, [2]⟩ [] 3)
      (dataKey (.labelIndex 13) 3) = some (.meta ⟨45, [2]⟩) ∧
    applyBatch (fun _ => none) (splitIndicesWOps ⟨70, [2]⟩ ⟨10, 13, 25, [2]⟩ [] 3)
      (dataKey (.labelIndex 10) 3) = some (.meta ⟨45, [2]⟩) ∧
    (Meta.mk 45 [2] ≠ Meta.mk 25 [2]) := by
  have hz : izyxSplit ([2] : List Nat) [] = [2] := by simp [izyxSplit]
  refine ⟨?_, ?_, by decide⟩ <;>
  · simp only [splitIndicesWOps, hz]
    decide

/-! ## Coarse split (`SplitCoarseLabels` in labels64) -/

/-- Observable outcome of one `SplitCoarseLabels` call that reaches its
return: the chosen target label, the block list published in the
`SplitLabelEvent` delta, the per-block mutations dispatched to the shard
channels, and the number of index batches committed. -/
structure CoarseSplitOutcome where
  toLabel : Nat
  splitLabelEventOldLabel : Nat
  splitLabelEventBlocks : List (Nat × Nat × Nat)
  dispatchedBlockOps : List (Nat × Nat × Nat)
  committedIndexBatches : Nat
deriving DecidableEq, Repr

/-- Z-major (IZYX) comparison of block coordinates (x, y, z), matching the
sort order of `dvid.IZYXSlice`. -/
def izyxLe (a b : Nat × Nat × Nat) : Bool :=
  if a.2.2 ≠ b.2.2 then decide (a.2.2 < b.2.2)
  else if a.2.1 ≠ b.2.1 then decide (a.2.1 < b.2.1)
  else decide (a.1 ≤ b.1)

/-- Insertion step for sorting block coordinates in IZYX order. -/
def insertIZYX (c : Nat × Nat × Nat) : List (Nat × Nat × Nat) → List (Nat × Nat × Nat)
  | [] => [c]
  | d :: ds => if izyxLe c d then c :: d :: ds else d :: insertIZYX c ds

/-- Ascending sort of block coordinates (`sort.Sort(splitblks)`). -/
def sortIZYX (l : List (Nat × Nat × Nat)) : List (Nat × Nat × Nat) :=
  l.foldr insertIZYX []

/-- Expansion of the coarse-split RLEs into individual block coordinates:
for each run the source iterates `i` from 0 to the run length, emitting the
block coordinate `(p0 + i, p1, p2)`. -/
def expandCoarseRLEs (rles : List ((Nat × Nat × Nat) × Nat)) : List (Nat × Nat × Nat) :=
  rles.foldr (fun rl acc =>
    ((List.range rl.2).map fun i => (rl.1.1 + i, rl.1.2.1, rl.1.2.2)) ++ acc) []

/-- `SplitCoarseLabels` on its successful path: choose the target label
(`splitLabel` when nonzero, else the freshly allocated label), read the
block RLEs, expand and sort them into `splitblks`, publish the
`SplitLabelEvent` carrying them, and return.  No per-block mutation is
dispatched to the shard channels and no index batch is committed: the
function returns directly after publishing the event (the coarse branch of
`processSplit` is never invoked). -/
def splitCoarseLabels (fromLabel splitLabel allocLabel : Nat)
    (rles : List ((Nat × Nat × Nat) × Nat)) : CoarseSplitOutcome :=
  let toLabel := if splitLabel ≠ 0 then splitLabel else allocLabel
  let splitblks := sortIZYX (expandCoarseRLEs rles)
  { toLabel := toLabel,
    splitLabelEventOldLabel := fromLabel,
    splitLabelEventBlocks := splitblks,
    dispatchedBlockOps := [],
    committedIndexBatches := 0 }

/-- Claim C1: contrary to the claim, the coarse split call
`split(3, from=10, to=0, Coarse([b3]))` (new label 12, with b3 the block at
coordinate (3,0,0)) dispatches no per-block relabeling work and commits no
index batch: it only publishes the sorted block list in a `SplitLabelEvent`
and returns the new label.  No voxel of b3 is rewritten and the label index
entries of labels 10 and 12 are untouched. -/
theorem splitCoarseLabels_no_mutation :
    (splitCoarseLabels 10 0 12 [((3, 0, 0), 1)]).dispatchedBlockOps = [] ∧
    (splitCoarseLabels 10 0 12 [((3, 0, 0), 1)]).committedIndexBatches = 0 ∧
    (splitCoarseLabels 10 0 12 [((3, 0, 0), 1)]).toLabel = 12 ∧
    (splitCoarseLabels 10 0 12 [((3, 0, 0), 1)]).splitLabelEventBlocks = [(3, 0, 0)] := by
  refine ⟨rfl, rfl, ?_, ?_⟩ <;> decide

/-! ## Voxel-level fine split (`splitLabel` in labels64) -/

/-- Is the flattened voxel index `i` covered by one of the RLE runs
(start, length)?  This is the set of voxels written in `splitLabel`'s loop
over `op.rles`: the source computes the linear position
`z*nxy + y*nx + x` of the run's start (relative to the block origin) and
writes the run length's worth of consecutive voxels. -/
def coveredByRLEs (rles : List (Nat × Nat)) (i : Nat) : Bool :=
  rles.any fun r => decide (r.1 ≤ i ∧ i < r.1 + r.2)

/-- One run of `splitLabel`: write `newLabel` over the voxels of the run. -/
def writeRun {n : Nat} (d : Fin n → Nat) (newLabel start len : Nat) : Fin n → Nat :=
  fun i => if start ≤ i.val ∧ i.val < start + len then newLabel else d i

/-- The voxel rewriting of `splitLabel`: the block is the flattened array of
`n` uint64 voxels, and each RLE run in turn overwrites its voxels with
`newLabel`. -/
def splitLabelData {n : Nat} (d : Fin n → Nat) (newLabel : Nat)
    (rles : List (Nat × Nat)) : Fin n → Nat :=
  rles.foldl (fun acc r => writeRun acc newLabel r.1 r.2) d

/-- Number of voxels of the block holding the given label. -/
def countLabel {n : Nat} (d : Fin n → Nat) (lab : Nat) : Nat :=
  (Finset.univ.filter fun i => d i = lab).card

lemma splitLabelData_apply {n : Nat} (d : Fin n → Nat) (newLabel : Nat)
    (rles : List (Nat × Nat)) (i : Fin n) :
    splitLabelData d newLabel rles i =
      if coveredByRLEs rles i.val then newLabel else d i := by
  induction rles generalizing d with
  | nil => simp [splitLabelData, coveredByRLEs]
  | cons r rs ih =>
    show splitLabelData (writeRun d newLabel r.1 r.2) newLabel rs i = _
    rw [ih]
    have hcons : coveredByRLEs (r :: rs) i.val =
        (decide (r.1 ≤ i.val ∧ i.val < r.1 + r.2) || coveredByRLEs rs i.val) := by
      simp [coveredByRLEs]
    rw [hcons]
    by_cases h2 : coveredByRLEs rs i.val = true
    · rw [if_pos h2, h2, Bool.or_true, if_pos rfl]
    · rw [if_neg h2]
      unfold writeRun
      by_cases h1 : r.1 ≤ i.val ∧ i.val < r.1 + r.2
      · rw [if_pos h1, decide_eq_true h1, Bool.true_or, if_pos rfl]
      · rw [if_neg h1, decide_eq_false h1, Bool.false_or, if_neg h2]

/-- Claim C5: for a block of a fine split of label F into label T, if every
voxel covered by the submitted RLEs carries F before the split and T does
not occur in the block, then the voxel count of F before the split equals
the count of F after plus the count of T after. -/
theorem splitLabel_voxel_conservation {n : Nat} (d : Fin n → Nat)
    (rles : List (Nat × Nat)) (F T : Nat) (hTF : T ≠ F)
    (hcov : ∀ i : Fin n, coveredByRLEs rles i.val = true → d i = F)
    (hT : countLabel d T = 0) :
    countLabel d F =
      countLabel (splitLabelData d T rles) F + countLabel (splitLabelData d T rles) T := by
  have hTnone : ∀ i : Fin n, d i ≠ T := by
    intro i hcon
    have hempty : (Finset.univ.filter fun j => d j = T) = ∅ :=
      Finset.card_eq_zero.mp hT
    have : i ∈ (Finset.univ.filter fun j => d j = T) :=
      Finset.mem_filter.mpr ⟨Finset.mem_univ i, hcon⟩
    rw [hempty] at this
    exact Finset.not_mem_empty i this
  have hFafter : countLabel (splitLabelData d T rles) F =
      (Finset.univ.filter fun i : Fin n =>
        d i = F ∧ ¬ coveredByRLEs rles i.val = true).card := by
    unfold countLabel
    congr 1
    apply Finset.filter_congr
    intro i _
    rw [splitLabelData_apply]
    by_cases hc : coveredByRLEs rles i.val
    · simp [hc, hTF]
    · simp only [Bool.not_eq_true] at hc
      simp [hc]
  have hTafter : countLabel (splitLabelData d T rles) T =
      (Finset.univ.filter fun i : Fin n => coveredByRLEs rles i.val = true).card := by
    unfold countLabel
    congr 1
    apply Finset.filter_congr
    intro i _
    rw [splitLabelData_apply]
    by_cases hc : coveredByRLEs rles i.val
    · simp [hc]
    · simp only [Bool.not_eq_true] at hc
      simp [hc, hTnone i]
  have hneg : ((Finset.univ.filter fun i : Fin n => d i = F).filter
        fun i => coveredByRLEs rles i.val = true).card +
      ((Finset.univ.filter fun i : Fin n => d i = F).filter
        fun i => ¬ coveredByRLEs rles i.val = true).card =
      (Finset.univ.filter fun i : Fin n => d i = F).card :=
    Finset.filter_card_add_filter_neg_card_eq_card
      fun i : Fin n => coveredByRLEs rles i.val = true
  have hff1 : ((Finset.univ.filter fun i : Fin n => d i = F).filter
        fun i => coveredByRLEs rles i.val = true) =
      Finset.univ.filter fun i : Fin n => d i = F ∧ coveredByRLEs rles i.val = true :=
    Finset.filter_filter _ _ _
  have hff2 : ((Finset.univ.filter fun i : Fin n => d i = F).filter
        fun i => ¬ coveredByRLEs rles i.val = true) =
      Finset.univ.filter fun i : Fin n => d i = F ∧ ¬ coveredByRLEs rles i.val = true :=
    Finset.filter_filter _ _ _
  have hsplit : countLabel d F =
      (Finset.univ.filter fun i : Fin n =>
        d i = F ∧ coveredByRLEs rles i.val = true).card +
      (Finset.univ.filter fun i : Fin n =>
        d i = F ∧ ¬ coveredByRLEs rles i.val = true).card := by
    unfold countLabel
    rw [← hneg, hff1, hff2]
  have hcovF : (Finset.univ.filter fun i : Fin n =>
      d i = F ∧ coveredByRLEs rles i.val = true).card =
      (Finset.univ.filter fun i : Fin n => coveredByRLEs rles i.val = true).card := by
    congr 1
    apply Finset.filter_congr
    intro i _
    constructor
    · intro h
      exact h.2
    · intro h
      exact ⟨hcov i h, h⟩
  rw [hFafter, hTafter, hsplit, hcovF]
  exact Nat.add_comm _ _

/-- Witness for C5: a four-voxel block holding labels [10, 10, 10, 5], with
one RLE run covering the first two voxels, split from label 10 to 13. -/
theorem splitLabel_voxel_conservation_witness :
    ((13 : Nat) ≠ 10) ∧
    (∀ i : Fin 4, coveredByRLEs [(0, 2)] i.val = true →
      (fun i : Fin 4 => if i.val < 3 then 10 else 5) i = 10) ∧
    countLabel (fun i : Fin 4 => if i.val < 3 then 10 else 5) 13 = 0 ∧
    countLabel (fun i : Fin 4 => if i.val < 3 then 10 else 5) 10 =
      countLabel (splitLabelData (fun i : Fin 4 => if i.val < 3 then 10 else 5) 13 [(0, 2)]) 10 +
      countLabel (splitLabelData (fun i : Fin 4 => if i.val < 3 then 10 else 5) 13 [(0, 2)]) 13 := by
  refine ⟨by decide, by decide, by decide, ?_⟩
  exact splitLabel_voxel_conservation (fun i : Fin 4 => if i.val < 3 then 10 else 5)
    [(0, 2)] 10 13 (by decide) (by decide) (by decide)

/-! ## Per-block workers (`mergeBlock` / `splitBlock` in labels64) -/

/-- Failure switches for one per-block worker invocation, one per early
return of the source: store initialization, `store.Get`, nil block data,
`dvid.DeserializeData`, `labels.Decompress`, decompressed length vs the
expected block byte count, the relabeling helper
(`splitLabel`/`replaceLabel`), and `dvid.SerializeData`. -/
structure BlockEnv where
  storeOk : Bool
  getOk : Bool
  dataPresent : Bool
  deserializeOk : Bool
  decompressOk : Bool
  sizeOk : Bool
  relabelOk : Bool
  serializeOk : Bool
deriving DecidableEq, Repr

/-- Result of one worker invocation: how many times `MutDone` ran for the
mutation's WaitGroup and whether the rewritten block reached `store.Put`. -/
structure BlockRes where
  mutDone : Nat
  blockStored : Bool
deriving DecidableEq, Repr

/-- Body of `mergeBlock` after the deferred `MutDone` is set up: each early
error return stores nothing; on success the relabeled block is serialized
and put (the merge relabel loop itself cannot fail). -/
def mergeBlockBody (env : BlockEnv) : BlockRes :=
  if !env.storeOk then ⟨0, false⟩
  else if !env.getOk then ⟨0, false⟩
  else if !env.dataPresent then ⟨0, false⟩
  else if !env.deserializeOk then ⟨0, false⟩
  else if !env.decompressOk then ⟨0, false⟩
  else if !env.sizeOk then ⟨0, false⟩
  else if !env.serializeOk then ⟨0, false⟩
  else ⟨0, true⟩

/-- `mergeBlock` begins with `defer d.MutDone(op.mutID)`, so the deferred
decrement runs exactly once on top of whatever path the body takes. -/
def mergeBlock (env : BlockEnv) : BlockRes :=
  let r := mergeBlockBody env
  { r with mutDone := r.mutDone + 1 }

/-- Body of `splitBlock` after the deferred `MutDone` is set up: the same
early returns as `mergeBlock`, plus the failure return of
`splitLabel` (fine mode) or `replaceLabel` (coarse mode). -/
def splitBlockBody (env : BlockEnv) : BlockRes :=
  if !env.storeOk then ⟨0, false⟩
  else if !env.getOk then ⟨0, false⟩
  else if !env.dataPresent then ⟨0, false⟩
  else if !env.deserializeOk then ⟨0, false⟩
  else if !env.decompressOk then ⟨0, false⟩
  else if !env.sizeOk then ⟨0, false⟩
  else if !env.relabelOk then ⟨0, false⟩
  else if !env.serializeOk then ⟨0, false⟩
  else ⟨0, true⟩

/-- `splitBlock` also begins with `defer d.MutDone(op.mutID)`. -/
def splitBlock (env : BlockEnv) : BlockRes :=
  let r := splitBlockBody env
  { r with mutDone := r.mutDone + 1 }

lemma mergeBlockBody_mutDone (env : BlockEnv) : (mergeBlockBody env).mutDone = 0 := by
  unfold mergeBlockBody
  repeat (first | rfl | split)

lemma splitBlockBody_mutDone (env : BlockEnv) : (splitBlockBody env).mutDone = 0 := by
  unfold splitBlockBody
  repeat (first | rfl | split)

/-- Claim C10: every dispatched per-block message decrements the mutation's
WaitGroup exactly once on every control path (the decrement is deferred on
entry, so each early error return still performs it), and hence the total
number of decrements over a dispatched batch equals the number of dispatched
messages, which is what releases the coordinator's `MutWait` barrier. -/
theorem blockWorkers_mutDone_once :
    (∀ env : BlockEnv, (mergeBlock env).mutDone = 1 ∧ (splitBlock env).mutDone = 1) ∧
    (∀ envs : List BlockEnv,
      ((envs.map mergeBlock).map BlockRes.mutDone).sum = envs.length) ∧
    (∀ envs : List BlockEnv,
      ((envs.map splitBlock).map BlockRes.mutDone).sum = envs.length) := by
  have hm : ∀ env : BlockEnv, (mergeBlock env).mutDone = 1 := by
    intro env
    show (mergeBlockBody env).mutDone + 1 = 1
    rw [mergeBlockBody_mutDone]
  have hs : ∀ env : BlockEnv, (splitBlock env).mutDone = 1 := by
    intro env
    show (splitBlockBody env).mutDone + 1 = 1
    rw [splitBlockBody_mutDone]
  refine ⟨fun env => ⟨hm env, hs env⟩, ?_, ?_⟩
  · intro envs
    induction envs with
    | nil => rfl
    | cons e es ih =>
      rw [List.map_cons, List.map_cons, List.sum_cons, hm e, ih, List.length_cons]
      omega
  · intro envs
    induction envs with
    | nil => rfl
    | cons e es ih =>
      rw [List.map_cons, List.map_cons, List.sum_cons, hs e, ih, List.length_cons]
      omega

/-! ## Merge coordinator error flow (`MergeLabels` in labels64) -/

/-- Failure switches for one `MergeLabels` call, in source order:
`labels.MergeStart`, the `MergeStartEvent` notification, the two
`GetLabelMeta` reads inside the goroutine, the `MergeBlockEvent`
notification, store initialization, and the final index `batch.Commit`
inside `processMerge`. -/
structure MergeCallEnv where
  mergeStartErr : Option Nat
  notifyStartErr : Option Nat
  targetMetaErr : Option Nat
  mergedMetaErr : Option Nat
  blockEventErr : Option Nat
  storeErr : Option Nat
  commitErr : Option Nat
deriving DecidableEq, Repr

/-- First of two optional errors. -/
def firstSome (a b : Option Nat) : Option Nat :=
  match a with
  | some e => some e
  | none => b

/-- Error returned by `processMerge` to the goroutine that invoked it. -/
def processMergeErr (env : MergeCallEnv) : Option Nat :=
  firstSome env.blockEventErr (firstSome env.storeErr env.commitErr)

/-- `MergeLabels`: the first component is the error returned to the caller,
the second the errors that are only logged.  The call returns after
`labels.MergeStart` and the `MergeStartEvent` notification; all remaining
work runs in a spawned goroutine whose failures are logged with
`dvid.Errorf` / `dvid.Criticalf` and never returned. -/
def mergeLabels (env : MergeCallEnv) : Option Nat × List Nat :=
  match env.mergeStartErr with
  | some e => (some e, [])
  | none =>
    match env.notifyStartErr with
    | some e => (some e, [])
    | none =>
      match env.targetMetaErr with
      | some e => (none, [e])
      | none =>
        match env.mergedMetaErr with
        | some e => (none, [e])
        | none =>
          match processMergeErr env with
          | some e => (none, [e])
          | none => (none, [])

/-- Claim C6 (amended): per-block failures are logged and do not abort the
processing of the other dispatched blocks, but the merge call's returned
result reflects only the pre-dispatch steps (`labels.MergeStart` and the
start-event notification): errors seen after the barrier — in particular a
failing final index commit — are logged, never returned, because the call
already returned nil when the goroutine was spawned. -/
theorem mergeLabels_error_flow :
    (∀ env : MergeCallEnv,
      (mergeLabels env).1 = firstSome env.mergeStartErr env.notifyStartErr) ∧
    (∀ (envs : List BlockEnv) (i : Nat),
      (envs.map mergeBlock)[i]? = (envs[i]?).map mergeBlock) := by
  constructor
  · intro env
    rcases env with ⟨ms, ns, tm, mm, be, se, ce⟩
    cases ms <;> cases ns <;> cases tm <;> cases mm <;> cases be <;> cases se <;>
      cases ce <;> rfl
  · intro envs i
    exact List.getElem?_map mergeBlock envs i

/-- Counterexample to claim C6 as stated: when only the final index commit
fails (error 7), the merge call returns success while the commit error is
merely logged. -/
theorem mergeLabels_swallows_commit_error :
    (mergeLabels ⟨none, none, none, none, none, none, some 7⟩).1 = none ∧
    (mergeLabels ⟨none, none, none, none, none, none, some 7⟩).2 = [7] := by
  exact ⟨rfl, rfl⟩
